import Mathlib

/-!
Verification of the coordinate-indexing / kernel-map engine of the
MinkowskiEngine repository.

The repository's source under `src/` contains only the pybind binding
header `src/pybind/extern.hpp`, which declares the exported operations
(`insert_and_map`, `py_stride`, `kernel_map`, `is_cuda_available`,
`cuda_version`, `get_gpu_memory_info`, ...). The C++ implementation files
(`coordinate_map_cpu.hpp`, `coordinate_map_manager.hpp`,
`kernel_region.hpp`, ...) are not part of `src/`, so the data model and
the algorithms below are modelled from the specification, as noted on
each definition. The CUDA introspection functions at the bottom of
`extern.hpp` are present in `src/` and are embedded directly.
-/

namespace Minkowski

/-- A coordinate: an ordered tuple of signed integers
(spec §3 "CoordinateVector"). -/
abbrev Coord := List Int

/-- Modelled from the spec (§3 "CoordinateIndex"; the implementing file
`coordinate_map_cpu.hpp` is not under `src/`): a deduplicating map from
coordinate vectors to dense row indices, stored as an association list
`(coordinate, row)` in insertion order. -/
structure CoordinateIndex where
  arity : Nat
  entries : List (Coord × Nat)
deriving Repr, DecidableEq

/-- Modelled from the spec (§4.2 `create(D)`): an empty index of arity D. -/
def create (D : Nat) : CoordinateIndex := ⟨D, []⟩

/-- Association-list lookup of a coordinate's row (first match). -/
def alookup (l : List (Coord × Nat)) (c : Coord) : Option Nat :=
  (l.find? (fun e => decide (e.1 = c))).map (fun e => e.2)

/-- Modelled from the spec (§4.2 `lookup`): point query returning the row
of a coordinate if present. -/
def lookup (idx : CoordinateIndex) (c : Coord) : Option Nat :=
  alookup idx.entries c

/-- Modelled from the spec (§4.2 `size`). -/
def size (idx : CoordinateIndex) : Nat := idx.entries.length

/-- Modelled from the spec (§4.2): insert one coordinate; if present
return its existing row, else append it with the next dense row number. -/
def insertOne (idx : CoordinateIndex) (c : Coord) : CoordinateIndex × Nat :=
  match lookup idx c with
  | some r => (idx, r)
  | none => (⟨idx.arity, idx.entries ++ [(c, idx.entries.length)]⟩, idx.entries.length)

/-- Modelled from the spec (§4.2 `insert_batch`, dedup phase + row return):
insert a batch sequentially, returning the updated index and the row index
of every input coordinate in input order. -/
def insertBatchRaw : CoordinateIndex → List Coord → CoordinateIndex × List Nat
  | idx, [] => (idx, [])
  | idx, c :: cs =>
    let p := insertOne idx c
    let q := insertBatchRaw p.1 cs
    (q.1, p.2 :: q.2)

/-- The error kinds of the spec (§7). -/
inductive MinkError where
  | arityMismatch
  | invalidCoordinateSize
  | unknownCoordinateMapKey
  | incompatibleStride
  | geometryMismatch
  | allocationFailure
deriving Repr, DecidableEq

/-- Modelled from the spec (§4.2 `insert_batch` with its `ArityMismatch`
validation, bound as `insert_and_map` in `src/pybind/extern.hpp:538`):
validate every coordinate's width against the index arity before any
mutation, then insert the batch. -/
def insert_batch (idx : CoordinateIndex) (cs : List Coord) :
    Except MinkError (CoordinateIndex × List Nat) :=
  if cs.all (fun c => decide (c.length = idx.arity)) then
    Except.ok (insertBatchRaw idx cs)
  else
    Except.error MinkError.arityMismatch

/-- One step of first-occurrence deduplication. -/
def dedupStep (acc : List Coord) (c : Coord) : List Coord :=
  if c ∈ acc then acc else acc ++ [c]

/-- First-occurrence deduplication of a coordinate list: the canonical
set kept by the claim/find phase of concurrent insertion (spec §4.2). -/
def canonicalSet (cs : List Coord) : List Coord :=
  cs.foldl dedupStep []

/-- Pair each element of a list with consecutive row numbers from `n`. -/
def withRowsFrom (n : Nat) : List Coord → List (Coord × Nat)
  | [] => []
  | c :: cs => (c, n) :: withRowsFrom (n + 1) cs

/-- Pair each element of a list with its dense row number. -/
def withRows (cs : List Coord) : List (Coord × Nat) := withRowsFrom 0 cs

/-- Modelled from the spec (§4.3 `insert` via the manager, with erroneous
batches rejected wholesale): the index state after one `insert_batch`
request, erroring requests leaving the index unchanged. -/
def applyBatch (idx : CoordinateIndex) (cs : List Coord) : CoordinateIndex :=
  match insert_batch idx cs with
  | Except.ok p => p.1
  | Except.error _ => idx

/-- The index obtained from `create` followed by a sequence of
`insert_batch` operations. -/
def buildIndex (D : Nat) (batches : List (List Coord)) : CoordinateIndex :=
  batches.foldl applyBatch (create D)

/-- Well-formedness of an index: distinct coordinates, and the rows are
exactly `0, 1, ..., N-1` in insertion order. -/
def WF (idx : CoordinateIndex) : Prop :=
  (idx.entries.map Prod.fst).Nodup ∧
    idx.entries.map Prod.snd = List.range idx.entries.length

/-- Modelled from the spec (§4.2 and §5, concurrency contract of
`insert_batch`; the implementing file is not under `src/`): a K-threaded
`insert_batch` run. The lock-free claim/find phase processes the batch
rows in a scheduling-dependent interleaving `sched` (a permutation of the
batch `B`), accumulating the deduplicated coordinate set; the sequential
numbering phase then assigns dense rows over that set in canonical order,
i.e. by first occurrence in the input batch `B`. -/
def threadedInsert (B sched : List Coord) : List (Coord × Nat) :=
  withRows ((canonicalSet B).filter
    (fun c => decide (c ∈ canonicalSet sched)))

/-- Modelled from the spec (§4.3 `stride`, bound as `py_stride` in
`src/pybind/extern.hpp:539`; the implementing manager code is not under
`src/`): each coordinate component is floor-divided by the corresponding
stride component. Lean's `/` on `Int` rounds toward negative infinity for
the positive divisors used here. -/
def stride_coord (s : List Int) (c : Coord) : Coord :=
  List.zipWith (fun x k => x / k) c s

/-- Modelled from the spec (§4.3 `stride`): the coordinate list of the
derived level — the input level's coordinates floor-divided, then
deduplicated keeping first occurrences. -/
def strideCoords (L : List Coord) (s : List Int) : List Coord :=
  canonicalSet (L.map (stride_coord s))

/-- Modelled from the spec (§3 "StrideKey"): a tensor-stride vector plus a
free-form tag; structural equality. -/
structure StrideKey where
  tensor_stride : List Int
  tag : String
deriving Repr, DecidableEq

/-- The kernel region shapes (`RegionType` enum bound in
`src/pybind/extern.hpp`): hyper-cube, hyper-cross, or a custom offset
list. -/
inductive KernelRegion where
  | hyperCube
  | hyperCross
  | custom (offsets : List (List Int))
deriving Repr, DecidableEq

/-- The kernel geometry of the spec (§4.4 and glossary): size, stride,
dilation, region shape and the transpose flag. -/
structure KernelGeometry where
  kernel_size : List Int
  kernel_stride : List Int
  kernel_dilation : List Int
  region : KernelRegion
  transpose : Bool
deriving Repr, DecidableEq

/-- The per-axis offset values `0, 1, ..., k-1` (spec §4.4: offsets range
over `[0, kernel_size)` on each axis). -/
def axisOffsets (k : Int) : List Int :=
  (List.range k.toNat).map Int.ofNat

/-- Modelled from the spec (§4.4, hyper-cube region): the full cartesian
product of the per-axis offset ranges. -/
def cubeOffsets : List Int → List (List Int)
  | [] => [[]]
  | k :: ks => (axisOffsets k).flatMap (fun v => (cubeOffsets ks).map (fun o => v :: o))

/-- The center offset of a kernel geometry: half the kernel size on each
axis. -/
def centerOf (ks : List Int) : List Int := ks.map (fun k => k / 2)

/-- Modelled from the spec (§4.4, hyper-cross region): the offsets that
differ from the center along exactly one axis. -/
def crossOffsets : List Int → List (List Int)
  | [] => []
  | k :: ks =>
      ((axisOffsets k).filter (fun v => decide (v ≠ k / 2))).map (fun v => v :: centerOf ks)
        ++ (crossOffsets ks).map (fun o => (k / 2) :: o)

/-- Modelled from the spec (§4.4): the offset list defined by the kernel
geometry's region shape. The hyper-cross region consists of the center
plus the single-axis deviations. -/
def kmOffsets (g : KernelGeometry) : List (List Int) :=
  match g.region with
  | KernelRegion.hyperCube => cubeOffsets g.kernel_size
  | KernelRegion.hyperCross => centerOf g.kernel_size :: crossOffsets g.kernel_size
  | KernelRegion.custom offsets => offsets

/-- The offset count K defined by a kernel geometry's region shape: the
product of the kernel sizes for a hyper-cube, one plus the sum of
`kernel_size - 1` over the axes for a hyper-cross, and the list length for
a custom region. -/
def offsetCount (g : KernelGeometry) : Nat :=
  match g.region with
  | KernelRegion.hyperCube => (g.kernel_size.map Int.toNat).prod
  | KernelRegion.hyperCross => 1 + (g.kernel_size.map (fun k => k.toNat - 1)).sum
  | KernelRegion.custom offsets => offsets.length

/-- Modelled from the spec (§4.4): the candidate input coordinate for an
output coordinate `c_out` and a kernel offset `o`:
`c_in = c_out * kernel_stride + (o - center) * kernel_dilation`, with the
sign of the offset term flipped when `transpose` is set. -/
def candidate (g : KernelGeometry) (o : List Int) (c_out : Coord) : Coord :=
  let diff := List.zipWith (fun a b => a - b) o (centerOf g.kernel_size)
  let off := List.zipWith (fun a b => a * b) diff g.kernel_dilation
  let base := List.zipWith (fun a b => a * b) c_out g.kernel_stride
  if g.transpose then List.zipWith (fun a b => a - b) base off
  else List.zipWith (fun a b => a + b) base off

/-- Modelled from the spec (§4.4, inner loop of `build`): the pairs-list of
one kernel offset `o` — for every output row `r` with coordinate `c_out`,
in ascending output-row order, look the candidate input coordinate up in
the input index and emit `(r_in, r)` when found. -/
def offsetPairs (inIdx outIdx : CoordinateIndex) (g : KernelGeometry)
    (o : List Int) : List (Nat × Nat) :=
  outIdx.entries.filterMap (fun e =>
    match lookup inIdx (candidate g o e.1) with
    | some r_in => some (r_in, e.2)
    | none => none)

/-- Modelled from the spec (§4.4 `build`, bound as `kernel_map` in
`src/pybind/extern.hpp:545`; the implementing generator is not under
`src/`): one pairs-list per kernel offset, empty lists retained. -/
def buildKernelMap (inIdx outIdx : CoordinateIndex) (g : KernelGeometry) :
    List (List (Nat × Nat)) :=
  (kmOffsets g).map (offsetPairs inIdx outIdx g)

/-- Modelled from the spec (§2, §4.3 "CoordinateMapManager"; the
implementing file `coordinate_map_manager.hpp` is not under `src/`): the
registry of levels keyed by StrideKey, the kernel-map cache, and a counter
of how many derivation computations have been performed (the observable
for the "computed at most once" caching discipline). -/
structure Manager where
  arity : Nat
  registry : List (StrideKey × CoordinateIndex)
  kmCache : List ((StrideKey × StrideKey × KernelGeometry) × List (List (Nat × Nat)))
  computeCount : Nat
deriving Repr, DecidableEq

/-- Registry lookup (first match) of a StrideKey. -/
def findIndex (m : Manager) (k : StrideKey) : Option CoordinateIndex :=
  (m.registry.find? (fun e => decide (e.1 = k))).map (fun e => e.2)

/-- Kernel-map cache lookup. -/
def findKernelMap (m : Manager) (sig : StrideKey × StrideKey × KernelGeometry) :
    Option (List (List (Nat × Nat))) :=
  (m.kmCache.find? (fun e => decide (e.1 = sig))).map (fun e => e.2)

/-- Modelled from the spec (§4.3 `insert`, bound as `insert_and_map`):
validate arity, then build the base (stride all-ones) level and register
it under the base key; the registry never holds two indices per key. -/
def insertOp (m : Manager) (coords : List Coord) : Manager × Except MinkError StrideKey :=
  if coords.all (fun c => decide (c.length = m.arity)) then
    match findIndex m ⟨List.replicate m.arity 1, ""⟩ with
    | some _ => (m, Except.ok ⟨List.replicate m.arity 1, ""⟩)
    | none =>
        ({ m with
            registry := m.registry ++
              [(⟨List.replicate m.arity 1, ""⟩, (insertBatchRaw (create m.arity) coords).1)],
            computeCount := m.computeCount + 1 },
          Except.ok ⟨List.replicate m.arity 1, ""⟩)
  else (m, Except.error MinkError.arityMismatch)

/-- Modelled from the spec (§4.3 `stride`, bound as `py_stride` in
`src/pybind/extern.hpp:539`): validate the key and the stride vector,
compute the output key by element-wise multiplication of tensor strides,
return it from the cache when already registered, else derive the level by
floor-division and deduplicating insertion, and register it. -/
def strideOp (m : Manager) (k : StrideKey) (s : List Int) :
    Manager × Except MinkError StrideKey :=
  match findIndex m k with
  | none => (m, Except.error MinkError.unknownCoordinateMapKey)
  | some idx =>
    if s.length = m.arity ∧ ∀ x ∈ s, 1 ≤ x then
      match findIndex m ⟨List.zipWith (fun a b => a * b) k.tensor_stride s, k.tag⟩ with
      | some _ =>
          (m, Except.ok ⟨List.zipWith (fun a b => a * b) k.tensor_stride s, k.tag⟩)
      | none =>
          ({ m with
              registry := m.registry ++
                [(⟨List.zipWith (fun a b => a * b) k.tensor_stride s, k.tag⟩,
                  (insertBatchRaw (create m.arity)
                    ((idx.entries.map Prod.fst).map (stride_coord s))).1)],
              computeCount := m.computeCount + 1 },
            Except.ok ⟨List.zipWith (fun a b => a * b) k.tensor_stride s, k.tag⟩)
    else (m, Except.error MinkError.incompatibleStride)

/-- Modelled from the spec (§4.3 `prune`): validate the key, then derive
the level holding only the mask-selected rows, preserving stride. -/
def pruneOp (m : Manager) (k : StrideKey) (mask : List Bool) :
    Manager × Except MinkError StrideKey :=
  match findIndex m k with
  | none => (m, Except.error MinkError.unknownCoordinateMapKey)
  | some idx =>
      match findIndex m ⟨k.tensor_stride, k.tag ++ "|pruned"⟩ with
      | some _ => (m, Except.ok ⟨k.tensor_stride, k.tag ++ "|pruned"⟩)
      | none =>
          ({ m with
              registry := m.registry ++
                [(⟨k.tensor_stride, k.tag ++ "|pruned"⟩,
                  (insertBatchRaw (create m.arity)
                    ((List.zip (idx.entries.map Prod.fst) mask).filterMap
                      (fun p => if p.2 then some p.1 else none))).1)],
              computeCount := m.computeCount + 1 },
            Except.ok ⟨k.tensor_stride, k.tag ++ "|pruned"⟩)

/-- Modelled from the spec (§4.3 `union`): validate that every input key is
registered and that all strides agree, then derive the deduplicated union
level. -/
def unionOp (m : Manager) (ks : List StrideKey) : Manager × Except MinkError StrideKey :=
  match ks with
  | [] => (m, Except.error MinkError.incompatibleStride)
  | k₀ :: rest =>
    if (k₀ :: rest).all (fun k => (findIndex m k).isSome) then
      if rest.all (fun k => decide (k.tensor_stride = k₀.tensor_stride)) then
        match findIndex m ⟨k₀.tensor_stride, k₀.tag ++ "|union"⟩ with
        | some _ => (m, Except.ok ⟨k₀.tensor_stride, k₀.tag ++ "|union"⟩)
        | none =>
            ({ m with
                registry := m.registry ++
                  [(⟨k₀.tensor_stride, k₀.tag ++ "|union"⟩,
                    (insertBatchRaw (create m.arity)
                      ((k₀ :: rest).flatMap (fun k =>
                        match findIndex m k with
                        | some idx => idx.entries.map Prod.fst
                        | none => []))).1)],
                computeCount := m.computeCount + 1 },
              Except.ok ⟨k₀.tensor_stride, k₀.tag ++ "|union"⟩)
      else (m, Except.error MinkError.incompatibleStride)
    else (m, Except.error MinkError.unknownCoordinateMapKey)

/-- Modelled from the spec (§4.3 `origin`, bound as `py_origin`): validate
the key, then collapse every coordinate to its batch component (element 0),
one row per distinct batch index. -/
def originOp (m : Manager) (k : StrideKey) : Manager × Except MinkError StrideKey :=
  match findIndex m k with
  | none => (m, Except.error MinkError.unknownCoordinateMapKey)
  | some idx =>
      match findIndex m ⟨List.replicate m.arity 1, k.tag ++ "|origin"⟩ with
      | some _ => (m, Except.ok ⟨List.replicate m.arity 1, k.tag ++ "|origin"⟩)
      | none =>
          ({ m with
              registry := m.registry ++
                [(⟨List.replicate m.arity 1, k.tag ++ "|origin"⟩,
                  (insertBatchRaw (create m.arity)
                    ((idx.entries.map Prod.fst).map
                      (fun c => c.take 1 ++ List.replicate (m.arity - 1) 0))).1)],
              computeCount := m.computeCount + 1 },
            Except.ok ⟨List.replicate m.arity 1, k.tag ++ "|origin"⟩)

/-- Modelled from the spec (§4.4 failure modes, bound as `kernel_map` in
`src/pybind/extern.hpp:545`): validate both keys and the geometry vector
widths, then build (or fetch from cache) the kernel map. -/
def kmapOp (m : Manager) (inK outK : StrideKey) (g : KernelGeometry) :
    Manager × Except MinkError (List (List (Nat × Nat))) :=
  match findIndex m inK, findIndex m outK with
  | none, _ => (m, Except.error MinkError.unknownCoordinateMapKey)
  | some _, none => (m, Except.error MinkError.unknownCoordinateMapKey)
  | some inIdx, some outIdx =>
    if g.kernel_size.length = m.arity ∧ g.kernel_stride.length = m.arity ∧
        g.kernel_dilation.length = m.arity then
      match findKernelMap m (inK, outK, g) with
      | some km => (m, Except.ok km)
      | none =>
          ({ m with
              kmCache := m.kmCache ++ [((inK, outK, g), buildKernelMap inIdx outIdx g)],
              computeCount := m.computeCount + 1 },
            Except.ok (buildKernelMap inIdx outIdx g))
    else (m, Except.error MinkError.geometryMismatch)

/-- One manager request (spec §4.3, §4.4): used to quantify over all
operations uniformly. -/
inductive MgrOp where
  | insertB (coords : List Coord)
  | strideB (k : StrideKey) (s : List Int)
  | pruneB (k : StrideKey) (mask : List Bool)
  | unionB (ks : List StrideKey)
  | originB (k : StrideKey)
  | kmapB (inK outK : StrideKey) (g : KernelGeometry)

/-- Run one manager request, discarding the success payload. -/
def runOp (m : Manager) : MgrOp → Manager × Except MinkError Unit
  | MgrOp.insertB cs => ((insertOp m cs).1, (insertOp m cs).2.map (fun _ => ()))
  | MgrOp.strideB k s => ((strideOp m k s).1, (strideOp m k s).2.map (fun _ => ()))
  | MgrOp.pruneB k mask => ((pruneOp m k mask).1, (pruneOp m k mask).2.map (fun _ => ()))
  | MgrOp.unionB ks => ((unionOp m ks).1, (unionOp m ks).2.map (fun _ => ()))
  | MgrOp.originB k => ((originOp m k).1, (originOp m k).2.map (fun _ => ()))
  | MgrOp.kmapB inK outK g => ((kmapOp m inK outK g).1, (kmapOp m inK outK g).2.map (fun _ => ()))

/-- The compile-time configuration of one build of the extension
(`src/pybind/extern.hpp:550-572`): whether `CPU_ONLY` is defined, and the
value of `CUDART_VERSION` when defined. -/
structure BuildConfig where
  cpu_only : Bool
  cudart_version : Option Int

/-- Embeds `is_cuda_available` from `src/pybind/extern.hpp:550-556`: `true`
exactly when the build has GPU support. -/
def is_cuda_available (cfg : BuildConfig) : Bool :=
  if cfg.cpu_only then false else true

/-- Embeds `cuda_version` from `src/pybind/extern.hpp:558-564`: `CUDART_VERSION`
when defined, `-1` otherwise. -/
def cuda_version (cfg : BuildConfig) : Int :=
  match cfg.cudart_version with
  | some v => v
  | none => -1

/-- Embeds `get_gpu_memory_info` from `src/pybind/extern.hpp:566-572`: the pair
`(0, 0)` in a CPU-only build, the device report (an external input,
`minkowski::get_memory_info`) otherwise. -/
def get_gpu_memory_info (cfg : BuildConfig) (deviceInfo : Nat × Nat) : Nat × Nat :=
  if cfg.cpu_only then (0, 0) else deviceInfo

/-! ### Association-list lookup lemmas -/

theorem alookup_nil (c : Coord) : alookup [] c = none := rfl

theorem alookup_cons (d : Coord) (r : Nat) (l : List (Coord × Nat)) (c : Coord) :
    alookup ((d, r) :: l) c = if d = c then some r else alookup l c := by
  by_cases h : d = c
  · simp [alookup, List.find?_cons_of_pos, h]
  · simp only [alookup, if_neg h]
    rw [List.find?_cons_of_neg]
    simp [h]

theorem alookup_append (l₁ l₂ : List (Coord × Nat)) (c : Coord) :
    alookup (l₁ ++ l₂) c = (alookup l₁ c).or (alookup l₂ c) := by
  simp only [alookup, List.find?_append]
  cases l₁.find? (fun e => decide (e.1 = c)) <;> simp

theorem mem_of_alookup_eq_some {l : List (Coord × Nat)} {c : Coord} {r : Nat}
    (h : alookup l c = some r) : (c, r) ∈ l := by
  simp only [alookup, Option.map_eq_some'] at h
  obtain ⟨e, he, hr⟩ := h
  have hmem := List.mem_of_find?_eq_some he
  have hp := List.find?_some he
  simp only [decide_eq_true_eq] at hp
  cases e
  simp_all

theorem alookup_eq_none_iff {l : List (Coord × Nat)} {c : Coord} :
    alookup l c = none ↔ ∀ e ∈ l, e.1 ≠ c := by
  simp only [alookup, Option.map_eq_none', List.find?_eq_none, decide_eq_true_eq]

theorem alookup_of_mem {l : List (Coord × Nat)} {c : Coord} {r : Nat}
    (hnd : (l.map Prod.fst).Nodup) (hm : (c, r) ∈ l) : alookup l c = some r := by
  induction l with
  | nil => simp at hm
  | cons e l ih =>
    obtain ⟨d, s⟩ := e
    rw [alookup_cons]
    simp only [List.map_cons, List.nodup_cons] at hnd
    rcases List.mem_cons.mp hm with h | h
    · obtain ⟨hc, hs⟩ := Prod.mk.inj h.symm
      subst hc; subst hs; simp
    · have hdc : d ≠ c := by
        intro hdc; subst hdc
        exact hnd.1 (List.mem_map.mpr ⟨(d, r), h, rfl⟩)
      rw [if_neg hdc]
      exact ih hnd.2 h

/-! ### Insertion lemmas -/

theorem insertOne_of_lookup_some {idx : CoordinateIndex} {c : Coord} {r : Nat}
    (h : lookup idx c = some r) : insertOne idx c = (idx, r) := by
  unfold insertOne
  rw [h]

theorem insertOne_of_lookup_none {idx : CoordinateIndex} {c : Coord}
    (h : lookup idx c = none) :
    insertOne idx c =
      (⟨idx.arity, idx.entries ++ [(c, idx.entries.length)]⟩, idx.entries.length) := by
  unfold insertOne
  rw [h]

theorem insertBatchRaw_cons (idx : CoordinateIndex) (c : Coord) (cs : List Coord) :
    insertBatchRaw idx (c :: cs) =
      ((insertBatchRaw (insertOne idx c).1 cs).1,
        (insertOne idx c).2 :: (insertBatchRaw (insertOne idx c).1 cs).2) := rfl

theorem insertOne_arity (idx : CoordinateIndex) (c : Coord) :
    (insertOne idx c).1.arity = idx.arity := by
  unfold insertOne
  cases lookup idx c <;> rfl

theorem lookup_insertOne_stable {idx : CoordinateIndex} {c₀ : Coord} {r : Nat}
    (h : lookup idx c₀ = some r) (c : Coord) :
    lookup (insertOne idx c).1 c₀ = some r := by
  unfold insertOne
  cases hl : lookup idx c with
  | some s => exact h
  | none =>
    simp only [lookup] at h ⊢
    rw [alookup_append, h]
    rfl

theorem lookup_insertOne_self (idx : CoordinateIndex) (c : Coord) :
    lookup (insertOne idx c).1 c = some (insertOne idx c).2 := by
  unfold insertOne
  cases hl : lookup idx c with
  | some s => exact hl
  | none =>
    simp only [lookup] at hl ⊢
    rw [alookup_append, hl, Option.none_or, alookup_cons]
    simp

theorem insertOne_WF {idx : CoordinateIndex} (h : WF idx) (c : Coord) :
    WF (insertOne idx c).1 := by
  unfold insertOne
  cases hl : lookup idx c with
  | some s => exact h
  | none =>
    obtain ⟨hnd, hrows⟩ := h
    constructor
    · simp only [List.map_append, List.map_cons, List.map_nil]
      rw [List.nodup_append]
      refine ⟨hnd, List.nodup_singleton c, ?_⟩
      intro x hx hx'
      simp only [List.mem_singleton] at hx'
      subst hx'
      obtain ⟨e, he, hec⟩ := List.mem_map.mp hx
      have := alookup_eq_none_iff.mp hl e he
      exact this hec
    · simp only [List.map_append, List.map_cons, List.map_nil]
      rw [hrows]
      simp [List.range_succ]

theorem insertBatchRaw_arity (idx : CoordinateIndex) (cs : List Coord) :
    (insertBatchRaw idx cs).1.arity = idx.arity := by
  induction cs generalizing idx with
  | nil => rfl
  | cons c cs ih =>
    rw [insertBatchRaw_cons]
    calc (insertBatchRaw (insertOne idx c).1 cs).1.arity
        = (insertOne idx c).1.arity := ih (insertOne idx c).1
      _ = idx.arity := insertOne_arity idx c

theorem lookup_insertBatchRaw_stable {idx : CoordinateIndex} {c₀ : Coord} {r : Nat}
    (h : lookup idx c₀ = some r) (cs : List Coord) :
    lookup (insertBatchRaw idx cs).1 c₀ = some r := by
  induction cs generalizing idx with
  | nil => exact h
  | cons c cs ih =>
    rw [insertBatchRaw_cons]
    exact ih (lookup_insertOne_stable h c)

theorem insertBatchRaw_WF {idx : CoordinateIndex} (h : WF idx) (cs : List Coord) :
    WF (insertBatchRaw idx cs).1 := by
  induction cs generalizing idx with
  | nil => exact h
  | cons c cs ih =>
    rw [insertBatchRaw_cons]
    exact ih (insertOne_WF h c)

theorem insertBatchRaw_idem (cs : List Coord) (idx : CoordinateIndex) :
    insertBatchRaw (insertBatchRaw idx cs).1 cs = insertBatchRaw idx cs := by
  induction cs generalizing idx with
  | nil => rfl
  | cons c cs ih =>
    have hself : lookup (insertBatchRaw (insertOne idx c).1 cs).1 c
        = some (insertOne idx c).2 :=
      lookup_insertBatchRaw_stable (lookup_insertOne_self idx c) cs
    rw [insertBatchRaw_cons idx c cs]
    rw [insertBatchRaw_cons (insertBatchRaw (insertOne idx c).1 cs).1 c cs]
    rw [insertOne_of_lookup_some hself, ih (insertOne idx c).1]

theorem create_WF (D : Nat) : WF (create D) := by
  constructor <;> simp [create]

theorem applyBatch_WF {idx : CoordinateIndex} (h : WF idx) (cs : List Coord) :
    WF (applyBatch idx cs) := by
  unfold applyBatch insert_batch
  by_cases hc : (cs.all fun c => decide (c.length = idx.arity)) = true
  · simp only [if_pos hc]
    exact insertBatchRaw_WF h cs
  · simp only [if_neg hc]
    exact h

theorem buildIndex_WF (D : Nat) (batches : List (List Coord)) :
    WF (buildIndex D batches) := by
  unfold buildIndex
  suffices h : ∀ (bs : List (List Coord)) (idx : CoordinateIndex),
      WF idx → WF (bs.foldl applyBatch idx) by
    exact h batches (create D) (create_WF D)
  intro bs
  induction bs with
  | nil => intro idx h; exact h
  | cons b bs ih =>
    intro idx h
    exact ih (applyBatch idx b) (applyBatch_WF h b)

theorem WF_lookup_inj {idx : CoordinateIndex} (h : WF idx) {c₁ c₂ : Coord} {r : Nat}
    (h₁ : lookup idx c₁ = some r) (h₂ : lookup idx c₂ = some r) : c₁ = c₂ := by
  have hm₁ : (c₁, r) ∈ idx.entries := mem_of_alookup_eq_some h₁
  have hm₂ : (c₂, r) ∈ idx.entries := mem_of_alookup_eq_some h₂
  have hrows : (idx.entries.map Prod.snd).Nodup := by
    rw [h.2]; exact List.nodup_range _
  have := List.inj_on_of_nodup_map hrows hm₁ hm₂ (by rfl)
  exact congrArg Prod.fst this

theorem WF_lookup_surj {idx : CoordinateIndex} (h : WF idx) (r : Nat) :
    (∃ c, lookup idx c = some r) ↔ r < size idx := by
  constructor
  · rintro ⟨c, hc⟩
    have hm : (c, r) ∈ idx.entries := mem_of_alookup_eq_some hc
    have : r ∈ idx.entries.map Prod.snd := List.mem_map.mpr ⟨(c, r), hm, rfl⟩
    rw [h.2, List.mem_range] at this
    exact this
  · intro hr
    have : r ∈ idx.entries.map Prod.snd := by
      rw [h.2, List.mem_range]; exact hr
    obtain ⟨e, he, her⟩ := List.mem_map.mp this
    refine ⟨e.1, ?_⟩
    have : (e.1, r) ∈ idx.entries := by
      cases e; simp only at her; subst her; exact he
    exact alookup_of_mem h.1 this

/-- C3: after any sequence of `create` and `insert_batch` operations, the
coordinate-to-row mapping of the resulting CoordinateIndex is injective and
the set of assigned row indices is exactly `{0, ..., N-1}` with
`N = size`. -/
theorem claim_C3 (D : Nat) (batches : List (List Coord)) :
    (∀ c₁ c₂ r, lookup (buildIndex D batches) c₁ = some r →
        lookup (buildIndex D batches) c₂ = some r → c₁ = c₂) ∧
    (∀ r : Nat, (∃ c, lookup (buildIndex D batches) c = some r) ↔
        r < size (buildIndex D batches)) := by
  have h := buildIndex_WF D batches
  exact ⟨fun c₁ c₂ r h₁ h₂ => WF_lookup_inj h h₁ h₂, fun r => WF_lookup_surj h r⟩

/-- Witness for C3 at a concrete index: row 1 of the index built from the
batch `[(0,0), (0,2), (0,0)]` is assigned to some coordinate. -/
theorem claim_C3_witness :
    ∃ c, lookup (buildIndex 2 [[[0, 0], [0, 2], [0, 0]]]) c = some 1 :=
  ((claim_C3 2 [[[0, 0], [0, 2], [0, 0]]]).2 1).mpr (by decide)

/-- C4: re-running `insert_batch` with the same batch on the index produced
by a first successful `insert_batch` returns the same row indices and the
same (hence same-sized) index. -/
theorem claim_C4 {idx idx₁ : CoordinateIndex} {B : List Coord} {rs : List Nat}
    (h : insert_batch idx B = Except.ok (idx₁, rs)) :
    insert_batch idx₁ B = Except.ok (idx₁, rs) := by
  unfold insert_batch at h ⊢
  by_cases hc : (B.all fun c => decide (c.length = idx.arity)) = true
  · rw [if_pos hc] at h
    have hraw : insertBatchRaw idx B = (idx₁, rs) := by
      injection h
    have harity : idx₁.arity = idx.arity := by
      have h2 := insertBatchRaw_arity idx B
      rw [hraw] at h2
      exact h2
    have hc₁ : (B.all fun c => decide (c.length = idx₁.arity)) = true := by
      rw [harity]; exact hc
    rw [if_pos hc₁]
    have hidem := insertBatchRaw_idem B idx
    rw [hraw] at hidem
    simp only at hidem
    rw [hidem]
  · rw [if_neg hc] at h
    exact absurd h (by simp)

/-- Witness for C4 at a concrete batch with a duplicate coordinate. -/
theorem claim_C4_witness :
    insert_batch ⟨2, [([0, 0], 0), ([0, 2], 1)]⟩ [[0, 0], [0, 2], [0, 0]] =
      Except.ok (⟨2, [([0, 0], 0), ([0, 2], 1)]⟩, [0, 1, 0]) :=
  @claim_C4 (create 2) ⟨2, [([0, 0], 0), ([0, 2], 1)]⟩ [[0, 0], [0, 2], [0, 0]]
    [0, 1, 0] (by rfl)

/-! ### Canonical deduplication and the shape of a freshly built index -/

theorem withRowsFrom_append (n : Nat) (S₁ S₂ : List Coord) :
    withRowsFrom n (S₁ ++ S₂) = withRowsFrom n S₁ ++ withRowsFrom (n + S₁.length) S₂ := by
  induction S₁ generalizing n with
  | nil => simp [withRowsFrom]
  | cons c S₁ ih =>
    simp only [List.cons_append, withRowsFrom, List.length_cons, List.append_eq]
    rw [ih]
    have h : n + 1 + S₁.length = n + (S₁.length + 1) := by omega
    rw [h]

theorem length_withRowsFrom (n : Nat) (S : List Coord) :
    (withRowsFrom n S).length = S.length := by
  induction S generalizing n with
  | nil => rfl
  | cons c S ih => simp [withRowsFrom, ih]

theorem alookup_withRowsFrom_of_not_mem {S : List Coord} {c : Coord}
    (h : c ∉ S) (n : Nat) : alookup (withRowsFrom n S) c = none := by
  induction S generalizing n with
  | nil => rfl
  | cons d S ih =>
    simp only [List.mem_cons, not_or] at h
    rw [withRowsFrom, alookup_cons, if_neg (Ne.symm h.1)]
    exact ih h.2 _

theorem alookup_withRowsFrom_isSome {S : List Coord} {c : Coord}
    (h : c ∈ S) (n : Nat) : (alookup (withRowsFrom n S) c).isSome := by
  induction S generalizing n with
  | nil => simp at h
  | cons d S ih =>
    rw [withRowsFrom, alookup_cons]
    by_cases hd : d = c
    · simp [hd]
    · rw [if_neg hd]
      rcases List.mem_cons.mp h with h' | h'
      · exact absurd h'.symm hd
      · exact ih h' _

theorem insertBatchRaw_entries_from_rows (B : List Coord) (D : Nat) (S : List Coord) :
    (insertBatchRaw ⟨D, withRows S⟩ B).1 = ⟨D, withRows (B.foldl dedupStep S)⟩ := by
  induction B generalizing S with
  | nil => rfl
  | cons c B ih =>
    rw [insertBatchRaw_cons]
    by_cases hm : c ∈ S
    · have hsome := alookup_withRowsFrom_isSome hm 0
      obtain ⟨r, hr⟩ := Option.isSome_iff_exists.mp hsome
      have hlk : lookup ⟨D, withRows S⟩ c = some r := hr
      rw [insertOne_of_lookup_some hlk]
      simp only [List.foldl_cons, dedupStep, if_pos hm]
      exact ih S
    · have hlk : lookup ⟨D, withRows S⟩ c = none :=
        alookup_withRowsFrom_of_not_mem hm 0
      rw [insertOne_of_lookup_none hlk]
      simp only []
      have hshape : (⟨D, withRows S ++ [(c, (withRows S).length)]⟩ : CoordinateIndex)
          = ⟨D, withRows (S ++ [c])⟩ := by
        simp only [withRows]
        rw [withRowsFrom_append, length_withRowsFrom]
        simp [withRowsFrom]
      rw [hshape]
      simp only [List.foldl_cons, dedupStep, if_neg hm]
      exact ih (S ++ [c])

theorem insertBatchRaw_create (D : Nat) (B : List Coord) :
    (insertBatchRaw (create D) B).1 = ⟨D, withRows (canonicalSet B)⟩ :=
  insertBatchRaw_entries_from_rows B D []

theorem mem_foldl_dedupStep (l : List Coord) (acc : List Coord) (c : Coord) :
    c ∈ l.foldl dedupStep acc ↔ c ∈ acc ∨ c ∈ l := by
  induction l generalizing acc with
  | nil => simp
  | cons x l ih =>
    rw [List.foldl_cons, ih]
    unfold dedupStep
    by_cases hx : x ∈ acc
    · rw [if_pos hx]
      constructor
      · rintro (h | h)
        · exact Or.inl h
        · exact Or.inr (List.mem_cons_of_mem x h)
      · rintro (h | h)
        · exact Or.inl h
        · rcases List.mem_cons.mp h with h' | h'
          · exact Or.inl (h' ▸ hx)
          · exact Or.inr h'
    · rw [if_neg hx]
      simp only [List.mem_append, List.mem_singleton, List.mem_cons]
      tauto

theorem mem_canonicalSet (l : List Coord) (c : Coord) :
    c ∈ canonicalSet l ↔ c ∈ l := by
  rw [canonicalSet, mem_foldl_dedupStep]
  simp

/-- C9: for every batch `B` and every thread interleaving (modelled as a
permutation `sched` of `B` in which the claim phase touches the rows), the
multi-threaded run produces exactly the row-to-coordinate association
that the 1-thread `insert_batch` run produces on a fresh index. -/
theorem claim_C9 (D : Nat) (B sched : List Coord) (hperm : sched.Perm B) :
    threadedInsert B sched = (insertBatchRaw (create D) B).1.entries := by
  rw [insertBatchRaw_create]
  unfold threadedInsert
  have hfilter : (canonicalSet B).filter
      (fun c => decide (c ∈ canonicalSet sched)) = canonicalSet B := by
    rw [List.filter_eq_self]
    intro c hc
    rw [decide_eq_true_eq, mem_canonicalSet]
    exact hperm.mem_iff.mpr ((mem_canonicalSet B c).mp hc)
  rw [hfilter]

/-- Witness for C9 at a concrete batch and a nontrivial interleaving. -/
theorem claim_C9_witness :
    threadedInsert [[0], [1], [0]] [[1], [0], [0]] =
      (insertBatchRaw (create 1) [[0], [1], [0]]).1.entries :=
  claim_C9 1 [[0], [1], [0]] [[1], [0], [0]] (by decide)

/-! ### Floor-division composition and the stride transform -/

theorem ediv_ediv_of_pos (a : Int) {s t : Int} (hs : 0 < s) (ht : 0 < t) :
    a / s / t = a / (s * t) := by
  have hst : 0 < s * t := mul_pos hs ht
  have hr0 : 0 ≤ a % (s * t) := Int.emod_nonneg a hst.ne'
  have hrlt : a % (s * t) < s * t := Int.emod_lt_of_pos a hst
  have hdecomp : a = a % (s * t) + s * (t * (a / (s * t))) := by
    have h := Int.emod_add_ediv a (s * t)
    calc a = a % (s * t) + s * t * (a / (s * t)) := h.symm
      _ = a % (s * t) + s * (t * (a / (s * t))) := by ring
  have h1 : a / s = a % (s * t) / s + t * (a / (s * t)) := by
    conv_lhs => rw [hdecomp]
    exact Int.add_mul_ediv_left _ _ hs.ne'
  have h2 : a / s / t = a % (s * t) / s / t + a / (s * t) := by
    rw [h1]
    exact Int.add_mul_ediv_left _ _ ht.ne'
  have h3 : a % (s * t) / s < t := by
    rw [Int.ediv_lt_iff_lt_mul hs]
    calc a % (s * t) < s * t := hrlt
      _ = t * s := mul_comm s t
  have h4 : a % (s * t) / s / t = 0 :=
    Int.ediv_eq_zero_of_lt (Int.ediv_nonneg hr0 hs.le) h3
  rw [h2, h4, zero_add]

theorem stride_coord_comp {s t : List Int} (hs : ∀ x ∈ s, 1 ≤ x)
    (ht : ∀ x ∈ t, 1 ≤ x) (hlen : s.length = t.length) (c : Coord) :
    stride_coord t (stride_coord s c) =
      stride_coord (List.zipWith (fun a b => a * b) s t) c := by
  induction s generalizing t c with
  | nil =>
    cases t with
    | nil => simp [stride_coord]
    | cons y t => simp at hlen
  | cons x s ih =>
    cases t with
    | nil => simp at hlen
    | cons y t =>
      cases c with
      | nil => simp [stride_coord]
      | cons a c =>
        simp only [stride_coord, List.zipWith_cons_cons] at *
        have hx : 0 < x := hs x (List.mem_cons_self x s)
        have hy : 0 < y := ht y (List.mem_cons_self y t)
        congr 1
        · exact ediv_ediv_of_pos a hx hy
        · have := ih (fun z hz => hs z (List.mem_cons_of_mem x hz))
            (fun z hz => ht z (List.mem_cons_of_mem y hz))
            (by simpa using hlen) c
          simpa [stride_coord] using this

/-- C5: striding a level's coordinates by `s` and then by `t` yields the
same coordinate set as striding once by the element-wise product `s * t`
(all stride components at least 1, equal arities). -/
theorem claim_C5 (L : List Coord) (s t : List Int) (hs : ∀ x ∈ s, 1 ≤ x)
    (ht : ∀ x ∈ t, 1 ≤ x) (hlen : s.length = t.length) (c : Coord) :
    c ∈ strideCoords (strideCoords L s) t ↔
      c ∈ strideCoords L (List.zipWith (fun a b => a * b) s t) := by
  unfold strideCoords
  rw [mem_canonicalSet, mem_canonicalSet, List.mem_map, List.mem_map]
  constructor
  · rintro ⟨b, hb, rfl⟩
    rw [mem_canonicalSet] at hb
    obtain ⟨a, ha, rfl⟩ := List.mem_map.mp hb
    exact ⟨a, ha, (stride_coord_comp hs ht hlen a).symm⟩
  · rintro ⟨a, ha, rfl⟩
    refine ⟨stride_coord s a, ?_, stride_coord_comp hs ht hlen a⟩
    rw [mem_canonicalSet]
    exact List.mem_map.mpr ⟨a, ha, rfl⟩

/-- Witness for C5 at a concrete level (including a negative coordinate)
and strides 2 then 3. -/
theorem claim_C5_witness :
    [0] ∈ strideCoords (strideCoords [[4], [5], [-3]] [2]) [3] ↔
      [0] ∈ strideCoords [[4], [5], [-3]] (List.zipWith (fun a b => a * b) [2] [3]) :=
  claim_C5 [[4], [5], [-3]] [2] [3] (by decide) (by decide) (by decide) [0]

/-- C6: from the base level built from `{(0,0),(0,2),(2,0),(2,2)}` (D = 2,
no batch dimension), `stride` with vector `(2,2)` derives the level
`{(0,0),(0,1),(1,0),(1,1)}` of size 4, row-for-row in insertion order
(row i of the derived level is row i of the base level floor-divided). -/
theorem claim_C6 :
    (strideOp (insertOp ⟨2, [], [], 0⟩ [[0, 0], [0, 2], [2, 0], [2, 2]]).1
        ⟨[1, 1], ""⟩ [2, 2]).2 = Except.ok ⟨[2, 2], ""⟩ ∧
    (findIndex (strideOp (insertOp ⟨2, [], [], 0⟩ [[0, 0], [0, 2], [2, 0], [2, 2]]).1
          ⟨[1, 1], ""⟩ [2, 2]).1 ⟨[2, 2], ""⟩).map (fun idx => idx.entries) =
      some [([0, 0], 0), ([0, 1], 1), ([1, 0], 2), ([1, 1], 3)] ∧
    (findIndex (strideOp (insertOp ⟨2, [], [], 0⟩ [[0, 0], [0, 2], [2, 0], [2, 2]]).1
          ⟨[1, 1], ""⟩ [2, 2]).1 ⟨[2, 2], ""⟩).map (fun idx => idx.entries.map Prod.fst) =
      some ([[0, 0], [0, 2], [2, 0], [2, 2]].map (stride_coord [2, 2])) :=
  ⟨rfl, rfl, rfl⟩

/-- C10: in a CPU-only build (`CPU_ONLY` defined, hence no CUDA headers and
no `CUDART_VERSION`), `is_cuda_available` returns false, `cuda_version`
returns -1 and `get_gpu_memory_info` returns `(0, 0)`; in a build with GPU
support, `is_cuda_available` returns true. -/
theorem claim_C10 (cfg : BuildConfig) (deviceInfo : Nat × Nat)
    (hdef : cfg.cpu_only = true → cfg.cudart_version = none) :
    (cfg.cpu_only = true →
      is_cuda_available cfg = false ∧ cuda_version cfg = -1 ∧
        get_gpu_memory_info cfg deviceInfo = (0, 0)) ∧
    (cfg.cpu_only = false → is_cuda_available cfg = true) := by
  constructor
  · intro hcpu
    refine ⟨?_, ?_, ?_⟩
    · simp [is_cuda_available, hcpu]
    · simp [cuda_version, hdef hcpu]
    · simp [get_gpu_memory_info, hcpu]
  · intro hgpu
    simp [is_cuda_available, hgpu]

/-- Witness for C10 at a concrete CPU-only build and a concrete GPU
build. -/
theorem claim_C10_witness :
    (is_cuda_available ⟨true, none⟩ = false ∧ cuda_version ⟨true, none⟩ = -1 ∧
      get_gpu_memory_info ⟨true, none⟩ (3, 4) = (0, 0)) ∧
    is_cuda_available ⟨false, some 11040⟩ = true :=
  ⟨(claim_C10 ⟨true, none⟩ (3, 4) (fun _ => rfl)).1 rfl,
    (claim_C10 ⟨false, some 11040⟩ (3, 4) (fun h => by cases h)).2 rfl⟩

/-! ### Kernel geometry offset counting -/

theorem length_axisOffsets (k : Int) : (axisOffsets k).length = k.toNat := by
  simp [axisOffsets]

theorem sum_map_const_length {α : Type} (l : List α) (n : Nat) (f : α → Nat)
    (hf : ∀ a ∈ l, f a = n) : (l.map f).sum = l.length * n := by
  induction l with
  | nil => simp
  | cons a l ih =>
    simp only [List.map_cons, List.sum_cons, List.length_cons]
    rw [hf a (List.mem_cons_self a l), ih (fun b hb => hf b (List.mem_cons_of_mem a hb))]
    ring

theorem length_cubeOffsets (ks : List Int) :
    (cubeOffsets ks).length = (ks.map Int.toNat).prod := by
  induction ks with
  | nil => rfl
  | cons k ks ih =>
    have hconst : ∀ v ∈ axisOffsets k,
        ((cubeOffsets ks).map (fun o => v :: o)).length = (ks.map Int.toNat).prod := by
      intro v _
      rw [List.length_map, ih]
    calc (cubeOffsets (k :: ks)).length
        = ((axisOffsets k).map
            (fun v => ((cubeOffsets ks).map (fun o => v :: o)).length)).sum := by
          simp only [cubeOffsets, List.length_flatMap, Function.comp_def]
      _ = (axisOffsets k).length * (ks.map Int.toNat).prod :=
          sum_map_const_length _ _ _ hconst
      _ = ((k :: ks).map Int.toNat).prod := by
          rw [length_axisOffsets, List.map_cons, List.prod_cons]

theorem nodup_axisOffsets (k : Int) : (axisOffsets k).Nodup := by
  refine List.Nodup.map ?_ (List.nodup_range _)
  intro a b h
  exact Int.ofNat.inj h

theorem half_mem_axisOffsets {k : Int} (hk : 0 < k) : k / 2 ∈ axisOffsets k := by
  have h0 : (0 : Int) ≤ k / 2 := Int.ediv_nonneg hk.le (by norm_num)
  have hlt : k / 2 < k := by
    rw [Int.ediv_lt_iff_lt_mul (by norm_num : (0 : Int) < 2)]
    omega
  refine List.mem_map.mpr ⟨(k / 2).toNat, ?_, Int.toNat_of_nonneg h0⟩
  rw [List.mem_range]
  exact (Int.toNat_lt_toNat hk).mpr hlt

theorem length_filter_ne_of_nodup {l : List Int} (hnd : l.Nodup) {c : Int}
    (hc : c ∈ l) : (l.filter (fun v => decide (v ≠ c))).length = l.length - 1 := by
  induction l with
  | nil => simp at hc
  | cons d l ih =>
    rw [List.nodup_cons] at hnd
    by_cases hdc : d = c
    · subst hdc
      rw [List.filter_cons_of_neg (by simp)]
      rw [List.filter_eq_self.mpr ?hall]
      · simp
      case hall =>
        intro v hv
        simp only [ne_eq, decide_eq_true_eq]
        intro hvc
        exact hnd.1 (hvc ▸ hv)
    · have hcl : c ∈ l := by
        rcases List.mem_cons.mp hc with h | h
        · exact absurd h.symm hdc
        · exact h
      rw [List.filter_cons_of_pos (by simp [hdc])]
      rw [List.length_cons, ih hnd.2 hcl]
      have : 0 < l.length := List.length_pos.mpr (List.ne_nil_of_mem hcl)
      simp only [List.length_cons]
      omega

theorem length_filter_ne_half (k : Int) :
    ((axisOffsets k).filter (fun v => decide (v ≠ k / 2))).length = k.toNat - 1 := by
  by_cases hk : 0 < k
  · rw [length_filter_ne_of_nodup (nodup_axisOffsets k) (half_mem_axisOffsets hk),
      length_axisOffsets]
  · have hz : k.toNat = 0 := Int.toNat_of_nonpos (by omega)
    have hnil : axisOffsets k = [] := by
      unfold axisOffsets
      rw [hz]
      rfl
    rw [hnil, hz]
    rfl

theorem length_crossOffsets (ks : List Int) :
    (crossOffsets ks).length = (ks.map (fun k => k.toNat - 1)).sum := by
  induction ks with
  | nil => rfl
  | cons k ks ih =>
    simp only [crossOffsets, List.length_append, List.length_map, List.map_cons,
      List.sum_cons]
    rw [length_filter_ne_half, ih]

/-- C2: the kernel map produced by `build` has exactly K per-offset
pairs-lists, where K is the offset count defined by the geometry's region
shape (the product of the kernel sizes for a hyper-cube, one plus the sum
of the per-axis `size - 1` for a hyper-cross, the list length for a
custom region); empty pairs-lists are retained, never omitted. -/
theorem claim_C2 (inIdx outIdx : CoordinateIndex) (g : KernelGeometry) :
    (buildKernelMap inIdx outIdx g).length = offsetCount g := by
  cases hr : g.region with
  | hyperCube =>
    simp only [buildKernelMap, kmOffsets, offsetCount, hr, List.length_map]
    exact length_cubeOffsets _
  | hyperCross =>
    simp only [buildKernelMap, kmOffsets, offsetCount, hr, List.length_map,
      List.length_cons]
    rw [length_crossOffsets]
    omega
  | custom offsets =>
    simp only [buildKernelMap, kmOffsets, offsetCount, hr, List.length_map]

/-- C1: for an offset `o` of the geometry and an output row `r` with
coordinate `c_out` (rows distinct, as every index built by the engine
guarantees), the pair `(r_in, r)` is in offset `o`'s pairs-list of the
kernel map exactly when the candidate input coordinate
`c_out * kernel_stride + (o - center) * kernel_dilation` (sign flipped
under `transpose`) is found at row `r_in` in the input index. -/
theorem claim_C1 (inIdx outIdx : CoordinateIndex) (g : KernelGeometry)
    (o : List Int) (r_in r : Nat) (c_out : Coord) (ho : o ∈ kmOffsets g)
    (hrow : (c_out, r) ∈ outIdx.entries)
    (hnd : (outIdx.entries.map Prod.snd).Nodup) :
    offsetPairs inIdx outIdx g o ∈ buildKernelMap inIdx outIdx g ∧
    ((r_in, r) ∈ offsetPairs inIdx outIdx g o ↔
      lookup inIdx (candidate g o c_out) = some r_in) := by
  constructor
  · exact List.mem_map.mpr ⟨o, ho, rfl⟩
  constructor
  · intro hmem
    unfold offsetPairs at hmem
    obtain ⟨e, he, hfe⟩ := List.mem_filterMap.mp hmem
    cases hl : lookup inIdx (candidate g o e.1) with
    | none => rw [hl] at hfe; exact absurd hfe (by simp)
    | some ri =>
      rw [hl] at hfe
      have hri : ri = r_in ∧ e.2 = r := by
        have := Option.some.inj hfe
        exact ⟨congrArg Prod.fst this, congrArg Prod.snd this⟩
      have he' : e = (c_out, r) := by
        apply List.inj_on_of_nodup_map hnd he hrow
        exact hri.2
      rw [he'] at hl
      rw [← hri.1]
      exact hl
  · intro hl
    unfold offsetPairs
    refine List.mem_filterMap.mpr ⟨(c_out, r), hrow, ?_⟩
    show (match lookup inIdx (candidate g o c_out) with
      | some r_in => some (r_in, r)
      | none => none) = some (r_in, r)
    rw [hl]

/-- Witness for C1 at the spec's 4-point level with a 3x3 hyper-cube
kernel: the center offset pairs row 0 with itself. -/
theorem claim_C1_witness :
    (0, 0) ∈ offsetPairs ⟨2, [([0, 0], 0), ([0, 1], 1), ([1, 0], 2), ([1, 1], 3)]⟩
        ⟨2, [([0, 0], 0), ([0, 1], 1), ([1, 0], 2), ([1, 1], 3)]⟩
        ⟨[3, 3], [1, 1], [1, 1], KernelRegion.hyperCube, false⟩ [1, 1] :=
  ((claim_C1 ⟨2, [([0, 0], 0), ([0, 1], 1), ([1, 0], 2), ([1, 1], 3)]⟩
      ⟨2, [([0, 0], 0), ([0, 1], 1), ([1, 0], 2), ([1, 1], 3)]⟩
      ⟨[3, 3], [1, 1], [1, 1], KernelRegion.hyperCube, false⟩ [1, 1] 0 0 [0, 0]
      (by decide) (by decide) (by decide)).2).mpr (by rfl)

/-! ### Manager registry lemmas and the stride cache -/

theorem findIndex_append_of_some {m : Manager} {k : StrideKey}
    {idx : CoordinateIndex} (h : findIndex m k = some idx)
    (l : List (StrideKey × CoordinateIndex)) (kc) (n) :
    findIndex ⟨m.arity, m.registry ++ l, kc, n⟩ k = some idx := by
  unfold findIndex at h ⊢
  simp only [] at h ⊢
  rw [List.find?_append]
  obtain ⟨e, he, hr⟩ := Option.map_eq_some'.mp h
  rw [he]
  simp [hr]

theorem findIndex_append_self {m : Manager} {k : StrideKey}
    (h : findIndex m k = none) (idx : CoordinateIndex) (kc) (n) :
    findIndex ⟨m.arity, m.registry ++ [(k, idx)], kc, n⟩ k = some idx := by
  unfold findIndex at h ⊢
  simp only [] at h ⊢
  rw [List.find?_append]
  rw [Option.map_eq_none'.mp h]
  simp

/-- C7: a second `stride` request with the same input key and stride vector
returns the same StrideKey and leaves the manager — registry, caches and
computation count — exactly as the first request left it: the derived
level is computed only once. -/
theorem claim_C7 {m m₁ : Manager} {k k' : StrideKey} {s : List Int}
    (h : strideOp m k s = (m₁, Except.ok k')) :
    strideOp m₁ k s = (m₁, Except.ok k') := by
  unfold strideOp at h
  split at h
  · simp at h
  next idx hfk =>
    split at h
    case isFalse => simp at h
    case isTrue hcond =>
      split at h
      next val hfo =>
        have hm : m₁ = m := (Prod.mk.inj h).1.symm
        have hk : k' = ⟨List.zipWith (fun a b => a * b) k.tensor_stride s, k.tag⟩ :=
          (Except.ok.inj (Prod.mk.inj h).2).symm
        subst hm; subst hk
        simp only [strideOp, hfk]
        rw [if_pos hcond, hfo]
      next hfo =>
        have hm : m₁ = ⟨m.arity,
            m.registry ++
              [(⟨List.zipWith (fun a b => a * b) k.tensor_stride s, k.tag⟩,
                (insertBatchRaw (create m.arity)
                  ((idx.entries.map Prod.fst).map (stride_coord s))).1)],
            m.kmCache, m.computeCount + 1⟩ := (Prod.mk.inj h).1.symm
        have hk : k' = ⟨List.zipWith (fun a b => a * b) k.tensor_stride s, k.tag⟩ :=
          (Except.ok.inj (Prod.mk.inj h).2).symm
        subst hm; subst hk
        simp only [strideOp, findIndex_append_of_some hfk]
        rw [if_pos (show s.length = m.arity ∧ ∀ x ∈ s, 1 ≤ x from hcond),
          findIndex_append_self hfo]

/-- Witness for C7: the concrete stride-(2,2) derivation of the spec's
4-point base level, requested twice. -/
theorem claim_C7_witness :
    strideOp (strideOp (insertOp ⟨2, [], [], 0⟩ [[0, 0], [0, 2], [2, 0], [2, 2]]).1
        ⟨[1, 1], ""⟩ [2, 2]).1 ⟨[1, 1], ""⟩ [2, 2] =
      ((strideOp (insertOp ⟨2, [], [], 0⟩ [[0, 0], [0, 2], [2, 0], [2, 2]]).1
        ⟨[1, 1], ""⟩ [2, 2]).1, Except.ok ⟨[2, 2], ""⟩) :=
  @claim_C7 (insertOp ⟨2, [], [], 0⟩ [[0, 0], [0, 2], [2, 0], [2, 2]]).1
    (strideOp (insertOp ⟨2, [], [], 0⟩ [[0, 0], [0, 2], [2, 0], [2, 2]]).1
      ⟨[1, 1], ""⟩ [2, 2]).1
    ⟨[1, 1], ""⟩ ⟨[2, 2], ""⟩ [2, 2] (by rfl)

/-! ### Error atomicity of the manager operations -/

theorem insertOp_error {m : Manager} {cs : List Coord} {m' : Manager} {e : MinkError}
    (h : insertOp m cs = (m', Except.error e)) : m' = m := by
  unfold insertOp at h
  split at h
  · split at h
    · exact absurd (Prod.mk.inj h).2 (by simp)
    · exact absurd (Prod.mk.inj h).2 (by simp)
  · exact (Prod.mk.inj h).1.symm

theorem strideOp_error {m : Manager} {k : StrideKey} {s : List Int} {m' : Manager}
    {e : MinkError} (h : strideOp m k s = (m', Except.error e)) : m' = m := by
  unfold strideOp at h
  split at h
  · exact (Prod.mk.inj h).1.symm
  · split at h
    · split at h
      · exact absurd (Prod.mk.inj h).2 (by simp)
      · exact absurd (Prod.mk.inj h).2 (by simp)
    · exact (Prod.mk.inj h).1.symm

theorem pruneOp_error {m : Manager} {k : StrideKey} {mask : List Bool} {m' : Manager}
    {e : MinkError} (h : pruneOp m k mask = (m', Except.error e)) : m' = m := by
  unfold pruneOp at h
  split at h
  · exact (Prod.mk.inj h).1.symm
  · split at h
    · exact absurd (Prod.mk.inj h).2 (by simp)
    · exact absurd (Prod.mk.inj h).2 (by simp)

theorem unionOp_error {m : Manager} {ks : List StrideKey} {m' : Manager}
    {e : MinkError} (h : unionOp m ks = (m', Except.error e)) : m' = m := by
  unfold unionOp at h
  split at h
  · exact (Prod.mk.inj h).1.symm
  · split at h
    · split at h
      · split at h
        · exact absurd (Prod.mk.inj h).2 (by simp)
        · exact absurd (Prod.mk.inj h).2 (by simp)
      · exact (Prod.mk.inj h).1.symm
    · exact (Prod.mk.inj h).1.symm

theorem originOp_error {m : Manager} {k : StrideKey} {m' : Manager}
    {e : MinkError} (h : originOp m k = (m', Except.error e)) : m' = m := by
  unfold originOp at h
  split at h
  · exact (Prod.mk.inj h).1.symm
  · split at h
    · exact absurd (Prod.mk.inj h).2 (by simp)
    · exact absurd (Prod.mk.inj h).2 (by simp)

theorem kmapOp_error {m : Manager} {inK outK : StrideKey} {g : KernelGeometry}
    {m' : Manager} {e : MinkError}
    (h : kmapOp m inK outK g = (m', Except.error e)) : m' = m := by
  unfold kmapOp at h
  split at h
  · exact (Prod.mk.inj h).1.symm
  · exact (Prod.mk.inj h).1.symm
  · split at h
    · split at h
      · exact absurd (Prod.mk.inj h).2 (by simp)
      · exact absurd (Prod.mk.inj h).2 (by simp)
    · exact (Prod.mk.inj h).1.symm

theorem except_map_error {α β : Type} {x : Except MinkError α} {f : α → β}
    {e : MinkError} (h : x.map f = Except.error e) : x = Except.error e := by
  cases x with
  | ok a => simp [Except.map] at h
  | error e' => simpa [Except.map] using h

/-- C8: every manager operation (insert, stride, prune, union, origin,
kernel-map build) that fails with a typed error leaves the manager —
registry, kernel-map cache and computation count — exactly as it was
before the call: no partially built index or kernel map is registered. -/
theorem claim_C8 (m : Manager) (op : MgrOp) (m' : Manager) (e : MinkError)
    (h : runOp m op = (m', Except.error e)) : m' = m := by
  cases op with
  | insertB cs =>
    simp only [runOp] at h
    have h1 : (insertOp m cs).1 = m' := (Prod.mk.inj h).1
    have h2 : (insertOp m cs).2 = Except.error e := except_map_error (Prod.mk.inj h).2
    have hp : insertOp m cs = (m', Except.error e) := by rw [← h1, ← h2]
    exact insertOp_error hp
  | strideB k s =>
    simp only [runOp] at h
    have h1 : (strideOp m k s).1 = m' := (Prod.mk.inj h).1
    have h2 : (strideOp m k s).2 = Except.error e := except_map_error (Prod.mk.inj h).2
    have hp : strideOp m k s = (m', Except.error e) := by rw [← h1, ← h2]
    exact strideOp_error hp
  | pruneB k mask =>
    simp only [runOp] at h
    have h1 : (pruneOp m k mask).1 = m' := (Prod.mk.inj h).1
    have h2 : (pruneOp m k mask).2 = Except.error e := except_map_error (Prod.mk.inj h).2
    have hp : pruneOp m k mask = (m', Except.error e) := by rw [← h1, ← h2]
    exact pruneOp_error hp
  | unionB ks =>
    simp only [runOp] at h
    have h1 : (unionOp m ks).1 = m' := (Prod.mk.inj h).1
    have h2 : (unionOp m ks).2 = Except.error e := except_map_error (Prod.mk.inj h).2
    have hp : unionOp m ks = (m', Except.error e) := by rw [← h1, ← h2]
    exact unionOp_error hp
  | originB k =>
    simp only [runOp] at h
    have h1 : (originOp m k).1 = m' := (Prod.mk.inj h).1
    have h2 : (originOp m k).2 = Except.error e := except_map_error (Prod.mk.inj h).2
    have hp : originOp m k = (m', Except.error e) := by rw [← h1, ← h2]
    exact originOp_error hp
  | kmapB inK outK g =>
    simp only [runOp] at h
    have h1 : (kmapOp m inK outK g).1 = m' := (Prod.mk.inj h).1
    have h2 : (kmapOp m inK outK g).2 = Except.error e :=
      except_map_error (Prod.mk.inj h).2
    have hp : kmapOp m inK outK g = (m', Except.error e) := by rw [← h1, ← h2]
    exact kmapOp_error hp

/-- Witness for C8: a `stride` request with an unregistered key on a
manager holding one level fails and leaves the manager unchanged. -/
theorem claim_C8_witness :
    (runOp (insertOp ⟨2, [], [], 0⟩ [[0, 0], [0, 2]]).1
        (MgrOp.strideB ⟨[7, 7], ""⟩ [2, 2])).1 =
      (insertOp ⟨2, [], [], 0⟩ [[0, 0], [0, 2]]).1 :=
  claim_C8 (insertOp ⟨2, [], [], 0⟩ [[0, 0], [0, 2]]).1
    (MgrOp.strideB ⟨[7, 7], ""⟩ [2, 2])
    (runOp (insertOp ⟨2, [], [], 0⟩ [[0, 0], [0, 2]]).1
      (MgrOp.strideB ⟨[7, 7], ""⟩ [2, 2])).1
    MinkError.unknownCoordinateMapKey (by rfl)

end Minkowski
